import Mathlib

/-!
Verification development for the biosciences tool server.

The definitions below embed the sequence utilities of src/server/main.py:
the reverse complement tool, the six frame ORF scanner find_orfs, the motif
scanner find_motif and the Hamming distance tool
calculate_sequence_distance.  Complementation and translation are performed
in the original by the wrapped external sequence library; those two
primitives are modelled from the spec: the standard genetic code with a star
as the stop marker, trailing partial codons dropped, IUPAC ambiguity codes
resolved when all readings agree, and characters outside the accepted
alphabet making translation fail, which the wrapper surfaces as its error
value.  Machine floats of the original are modelled by rationals, and the
Python integers by Int with explicit floor division.
-/

namespace Biosciences

/-- ASCII uppercase conversion of one character, the fragment of the Python
upper method that the tools rely on (the inputs of interest are ASCII). -/
def upperChar (c : Char) : Char :=
  match c with
  | 'a' => 'A' | 'b' => 'B' | 'c' => 'C' | 'd' => 'D' | 'e' => 'E' | 'f' => 'F'
  | 'g' => 'G' | 'h' => 'H' | 'i' => 'I' | 'j' => 'J' | 'k' => 'K' | 'l' => 'L'
  | 'm' => 'M' | 'n' => 'N' | 'o' => 'O' | 'p' => 'P' | 'q' => 'Q' | 'r' => 'R'
  | 's' => 'S' | 't' => 'T' | 'u' => 'U' | 'v' => 'V' | 'w' => 'W' | 'x' => 'X'
  | 'y' => 'Y' | 'z' => 'Z'
  | other => other

/-- Uppercase a character list. -/
def upperStr (l : List Char) : List Char := l.map upperChar

/-- Complement of one nucleotide symbol under the standard DNA pairing
together with the IUPAC ambiguity complements, as the wrapped library
applies it; symbols without an entry pass through unchanged. -/
def complementChar (c : Char) : Char :=
  match c with
  | 'A' => 'T' | 'T' => 'A' | 'C' => 'G' | 'G' => 'C' | 'U' => 'A'
  | 'M' => 'K' | 'K' => 'M' | 'R' => 'Y' | 'Y' => 'R' | 'W' => 'W' | 'S' => 'S'
  | 'V' => 'B' | 'B' => 'V' | 'H' => 'D' | 'D' => 'H' | 'N' => 'N' | 'X' => 'X'
  | other => other

/-- Reverse complement of a nucleotide list: complement each symbol and
reverse the order. -/
def reverseComplement (l : List Char) : List Char := (l.map complementChar).reverse

/-- The reverse_complement tool: uppercase the input, then take its reverse
complement. -/
def reverse_complement (sequence : String) : String :=
  String.mk (reverseComplement (upperStr sequence.data))

/-- Modelled from the spec: the unambiguous readings of one nucleotide
symbol.  The accepted alphabet is A, C, G, T (with U read as T) together
with the IUPAC ambiguity codes; any other character has no reading and makes
translation fail. -/
def expandBase (c : Char) : List Char :=
  match c with
  | 'A' => ['A'] | 'C' => ['C'] | 'G' => ['G'] | 'T' => ['T'] | 'U' => ['T']
  | 'R' => ['A', 'G'] | 'Y' => ['C', 'T'] | 'S' => ['C', 'G'] | 'W' => ['A', 'T']
  | 'K' => ['G', 'T'] | 'M' => ['A', 'C']
  | 'B' => ['C', 'G', 'T'] | 'D' => ['A', 'G', 'T'] | 'H' => ['A', 'C', 'T']
  | 'V' => ['A', 'C', 'G'] | 'N' => ['A', 'C', 'G', 'T']
  | _ => []

/-- The standard genetic code on unambiguous codons, with a star as the stop
marker. -/
def stdAA (a b c : Char) : Char :=
  match a, b, c with
  | 'T', 'T', 'T' => 'F' | 'T', 'T', 'C' => 'F' | 'T', 'T', 'A' => 'L' | 'T', 'T', 'G' => 'L'
  | 'T', 'C', 'T' => 'S' | 'T', 'C', 'C' => 'S' | 'T', 'C', 'A' => 'S' | 'T', 'C', 'G' => 'S'
  | 'T', 'A', 'T' => 'Y' | 'T', 'A', 'C' => 'Y' | 'T', 'A', 'A' => '*' | 'T', 'A', 'G' => '*'
  | 'T', 'G', 'T' => 'C' | 'T', 'G', 'C' => 'C' | 'T', 'G', 'A' => '*' | 'T', 'G', 'G' => 'W'
  | 'C', 'T', 'T' => 'L' | 'C', 'T', 'C' => 'L' | 'C', 'T', 'A' => 'L' | 'C', 'T', 'G' => 'L'
  | 'C', 'C', 'T' => 'P' | 'C', 'C', 'C' => 'P' | 'C', 'C', 'A' => 'P' | 'C', 'C', 'G' => 'P'
  | 'C', 'A', 'T' => 'H' | 'C', 'A', 'C' => 'H' | 'C', 'A', 'A' => 'Q' | 'C', 'A', 'G' => 'Q'
  | 'C', 'G', 'T' => 'R' | 'C', 'G', 'C' => 'R' | 'C', 'G', 'A' => 'R' | 'C', 'G', 'G' => 'R'
  | 'A', 'T', 'T' => 'I' | 'A', 'T', 'C' => 'I' | 'A', 'T', 'A' => 'I' | 'A', 'T', 'G' => 'M'
  | 'A', 'C', 'T' => 'T' | 'A', 'C', 'C' => 'T' | 'A', 'C', 'A' => 'T' | 'A', 'C', 'G' => 'T'
  | 'A', 'A', 'T' => 'N' | 'A', 'A', 'C' => 'N' | 'A', 'A', 'A' => 'K' | 'A', 'A', 'G' => 'K'
  | 'A', 'G', 'T' => 'S' | 'A', 'G', 'C' => 'S' | 'A', 'G', 'A' => 'R' | 'A', 'G', 'G' => 'R'
  | 'G', 'T', 'T' => 'V' | 'G', 'T', 'C' => 'V' | 'G', 'T', 'A' => 'V' | 'G', 'T', 'G' => 'V'
  | 'G', 'C', 'T' => 'A' | 'G', 'C', 'C' => 'A' | 'G', 'C', 'A' => 'A' | 'G', 'C', 'G' => 'A'
  | 'G', 'A', 'T' => 'D' | 'G', 'A', 'C' => 'D' | 'G', 'A', 'A' => 'E' | 'G', 'A', 'G' => 'E'
  | 'G', 'G', 'T' => 'G' | 'G', 'G', 'C' => 'G' | 'G', 'G', 'A' => 'G' | 'G', 'G', 'G' => 'G'
  | _, _, _ => 'X'

/-- Modelled from the spec: translate one codon.  A codon whose readings all
agree translates to that amino acid (so an ambiguous stop codon still gives
the stop marker); a codon over valid letters with mixed readings gives the
unknown marker X; a codon containing a letter outside the accepted alphabet
makes translation fail. -/
def translateCodon (a b c : Char) : Except String Char :=
  if expandBase a = [] ∨ expandBase b = [] ∨ expandBase c = [] then
    .error "invalid codon"
  else
    match (expandBase a).flatMap (fun x => (expandBase b).flatMap
        (fun y => (expandBase c).map (fun z => stdAA x y z))) with
    | [] => .ok 'X'
    | d :: rest => if rest.all (fun e => e = d) then .ok d else .ok 'X'

/-- Modelled from the spec: codon by codon translation of a nucleotide list
into the amino acid list of a frame; any trailing partial codon is
dropped. -/
def translateList : List Char → Except String (List Char)
  | a :: b :: c :: rest =>
    match translateCodon a b c with
    | .error e => .error e
    | .ok aa =>
      match translateList rest with
      | .error e => .error e
      | .ok tail => .ok (aa :: tail)
  | _ => .ok []

/-- Offset of the first stop marker of a list, or its length when there is
none. -/
def starIdx : List Char → Nat
  | [] => 0
  | c :: rest => if c = '*' then 0 else starIdx rest + 1

/-- Index of the first stop marker at or after position i of a translated
frame, with the full length standing for a failed search, exactly as the
Python find call is used inside find_orfs. -/
def findStop (trans : List Char) (i : Nat) : Nat :=
  if trans.length < i then trans.length else i + starIdx (trans.drop i)

/-- One pass of the while loop of find_orfs over a translated frame: collect
the maximal runs between stop markers as pairs of amino acid indices (run
start inclusive, run end exclusive).  The fuel argument only bounds the
recursion and is chosen large enough that it never runs out, because the
running index grows by at least one per step. -/
def runsFromAux : Nat → List Char → Nat → List (Nat × Nat)
  | 0, _, _ => []
  | fuel + 1, tr, aaStart =>
    if aaStart < tr.length then
      (aaStart, findStop tr aaStart) :: runsFromAux fuel tr (findStop tr aaStart + 1)
    else []

/-- All stop bounded runs of a translated frame. -/
def runsOf (trans : List Char) : List (Nat × Nat) := runsFromAux (trans.length + 1) trans 0

/-- One discovered ORF record, the dictionary emitted by find_orfs: start
and end are 1 indexed nucleotide coordinates expressed on the original
sequence, strand is a plus or minus sign, frame is 1 to 3, length is the
nucleotide length of the run without its stop codon, protein is the
translated run. -/
structure Record where
  start : Int
  end_ : Int
  strand : String
  frame : Nat
  length : Int
  protein : List Char
  deriving DecidableEq

/-- Build the record of one run, converting amino acid indices to nucleotide
coordinates exactly as find_orfs does: on the forward strand start is the
frame offset plus three times the run start (then 1 indexed) and end is the
frame offset plus three times the run end plus three; on the reverse strand
both coordinates are reflected through the original length n. -/
def mkRecord (n : Nat) : Bool → Nat → List Char → Nat × Nat → Record
  | true, f, tr, p =>
    { start := (f : Int) + (p.1 : Int) * 3 + 1
      end_ := (f : Int) + (p.2 : Int) * 3 + 3
      strand := "+"
      frame := f + 1
      length := ((p.2 : Int) - (p.1 : Int)) * 3
      protein := (tr.drop p.1).take (p.2 - p.1) }
  | false, f, tr, p =>
    { start := (n : Int) - (f : Int) - (p.2 : Int) * 3 - 3 + 1
      end_ := (n : Int) - (f : Int) - (p.1 : Int) * 3
      strand := "-"
      frame := f + 1
      length := ((p.2 : Int) - (p.1 : Int)) * 3
      protein := (tr.drop p.1).take (p.2 - p.1) }

/-- The character list scanned for a given strand flag: the uppercased
sequence on the forward strand, its reverse complement on the reverse
strand. -/
def strandSeq (s : String) : Bool → List Char
  | true => upperStr s.data
  | false => reverseComplement (upperStr s.data)

/-- Records of one translated frame: keep the runs of at least min_length
over three (Python floor division) amino acids and convert each to a
record. -/
def emitRecords (n : Nat) (m : Int) (pos : Bool) (f : Nat) (trans : List Char) : List Record :=
  ((runsOf trans).filter fun p => Int.fdiv m 3 ≤ (p.2 : Int) - (p.1 : Int)).map
    (mkRecord n pos f trans)

/-- Scan one frame of one strand: translate from the frame offset onward and
emit the qualifying runs; a translation failure aborts the whole scan. -/
def frameScan (n : Nat) (m : Int) (pos : Bool) (sq : List Char) (f : Nat) :
    Except String (List Record) :=
  match translateList (sq.drop f) with
  | .error e => .error e
  | .ok tr => .ok (emitRecords n m pos f tr)

/-- Fold the frame scans in order, concatenating their records; the first
failure aborts everything, matching the single try block of the Python
original. -/
def scanAll (n : Nat) (m : Int) : List (Bool × List Char × Nat) → Except String (List Record)
  | [] => .ok []
  | (pos, sq, f) :: rest =>
    match frameScan n m pos sq f with
    | .error e => .error e
    | .ok recs =>
      match scanAll n m rest with
      | .error e => .error e
      | .ok more => .ok (recs ++ more)

/-- The find_orfs tool: uppercase the sequence, compute its reverse
complement once, and scan the three forward frames then the three reverse
frames, collecting the ORF records in that order. -/
def find_orfs (sequence : String) (min_length : Int) : Except String (List Record) :=
  scanAll (upperStr sequence.data).length min_length
    [(true, upperStr sequence.data, 0), (true, upperStr sequence.data, 1),
     (true, upperStr sequence.data, 2),
     (false, reverseComplement (upperStr sequence.data), 0),
     (false, reverseComplement (upperStr sequence.data), 1),
     (false, reverseComplement (upperStr sequence.data), 2)]

/-- The find_motif tool: uppercase both arguments and return the 1 indexed
positions of every occurrence of the motif in the sequence, in scan order.
When the motif is longer than the sequence the Python range is empty and
here every candidate fails the comparison; both give the empty list. -/
def find_motif (sequence motif : String) : List Nat :=
  ((List.range ((upperStr sequence.data).length - (upperStr motif.data).length + 1)).filter
      fun i => ((upperStr sequence.data).drop i).take (upperStr motif.data).length =
        upperStr motif.data).map
    (fun i => i + 1)

/-- Round a rational to four decimal places, the model of the Python round
call (machine floats are modelled by rationals). -/
def round4 (q : ℚ) : ℚ := ((round (q * 10000) : ℤ) : ℚ) / 10000

/-- The calculate_sequence_distance tool: reject a length mismatch, count
the differing positions of the uppercased sequences and divide by the
length; on empty inputs the Python division raises and the wrapper reports
division by zero. -/
def calculate_sequence_distance (seq1 seq2 : String) : Except String ℚ :=
  if seq1.length ≠ seq2.length then .error "Sequences must be of equal length"
  else if seq1.length = 0 then .error "division by zero"
  else
    .ok (round4 ((((upperStr seq1.data).zip (upperStr seq2.data)).countP
        (fun q => q.1 != q.2) : ℚ) / (seq1.length : ℚ)))

/-- The record list of a successful scan, empty on failure. -/
def okList (e : Except String (List Record)) : List Record :=
  match e with
  | .ok l => l
  | .error _ => []

/-- Whether a tool call failed. -/
def isErr {α : Type} (e : Except String α) : Bool :=
  match e with
  | .ok _ => false
  | .error _ => true

/-- The accepted uppercase nucleotide alphabet: the four bases and the IUPAC
ambiguity codes. -/
def nucAlphabet : List Char :=
  ['A', 'C', 'G', 'T', 'R', 'Y', 'S', 'W', 'K', 'M', 'B', 'D', 'H', 'V', 'N']

end Biosciences

deriving instance DecidableEq for Except

namespace Biosciences

/-! Helper lemmas about the embedded operations. -/

lemma upperStr_length (l : List Char) : (upperStr l).length = l.length := by
  simp [upperStr]

lemma upperStr_data_length (s : String) : (upperStr s.data).length = s.length := by
  rw [upperStr, List.length_map]; rfl

lemma reverseComplement_length (l : List Char) : (reverseComplement l).length = l.length := by
  simp [reverseComplement]

lemma starIdx_le (l : List Char) : starIdx l ≤ l.length := by
  induction l with
  | nil => simp [starIdx]
  | cons c rest ih =>
    simp only [starIdx, List.length_cons]
    split
    · omega
    · omega

lemma findStop_le (tr : List Char) (i : Nat) : findStop tr i ≤ tr.length := by
  unfold findStop
  split
  · exact Nat.le_refl _
  · have h1 : starIdx (tr.drop i) ≤ (tr.drop i).length := starIdx_le _
    rw [List.length_drop] at h1
    omega

lemma le_findStop (tr : List Char) (i : Nat) (h : i ≤ tr.length) : i ≤ findStop tr i := by
  unfold findStop
  split
  · omega
  · omega

lemma mem_runsFromAux {tr : List Char} :
    ∀ (fuel a : Nat) (p : Nat × Nat), p ∈ runsFromAux fuel tr a →
      p.1 < tr.length ∧ p.1 ≤ p.2 ∧ p.2 ≤ tr.length := by
  intro fuel
  induction fuel with
  | zero => intro a p hp; simp [runsFromAux] at hp
  | succ fuel ih =>
    intro a p hp
    simp only [runsFromAux] at hp
    split at hp
    · rename_i ha
      rcases List.mem_cons.mp hp with h | h
      · subst h
        exact ⟨ha, le_findStop tr a (Nat.le_of_lt ha), findStop_le tr a⟩
      · exact ih _ p h
    · simp at hp

lemma mem_runsOf {tr : List Char} {p : Nat × Nat} (hp : p ∈ runsOf tr) :
    p.1 < tr.length ∧ p.1 ≤ p.2 ∧ p.2 ≤ tr.length :=
  mem_runsFromAux _ _ p hp

lemma translateList_ok_length (l : List Char) :
    ∀ t, translateList l = .ok t → 3 * t.length ≤ l.length := by
  induction l using translateList.induct with
  | case1 a b c rest e htc =>
    intro t h
    simp only [translateList, htc] at h
    exact Except.noConfusion h
  | case2 a b c rest aa htc e hr ih =>
    intro t h
    simp only [translateList, htc, hr] at h
    exact Except.noConfusion h
  | case3 a b c rest aa htc tail hr ih =>
    intro t h
    simp only [translateList, htc, hr] at h
    cases h
    have h2 := ih tail hr
    simp only [List.length_cons]
    omega
  | case4 t hne =>
    intro t2 h
    rcases t with _ | ⟨a, _ | ⟨b, _ | ⟨c, rest⟩⟩⟩
    · cases h; simp
    · cases h; simp
    · cases h; simp
    · exact absurd rfl (hne a b c rest)

lemma translateCodon_err_left {a b c : Char} (h : expandBase a = []) :
    translateCodon a b c = .error "invalid codon" := by
  unfold translateCodon
  rw [if_pos (Or.inl h)]

lemma translateCodon_err_mid {a b c : Char} (h : expandBase b = []) :
    translateCodon a b c = .error "invalid codon" := by
  unfold translateCodon
  rw [if_pos (Or.inr (Or.inl h))]

lemma translateCodon_err_right {a b c : Char} (h : expandBase c = []) :
    translateCodon a b c = .error "invalid codon" := by
  unfold translateCodon
  rw [if_pos (Or.inr (Or.inr h))]

lemma translateList_err (l : List Char) :
    ∀ j, j < 3 * (l.length / 3) → expandBase (l.getD j 'A') = [] →
      isErr (translateList l) = true := by
  induction l using translateList.induct with
  | case1 a b c rest e htc =>
    intro j hj hinv
    simp [translateList, htc, isErr]
  | case2 a b c rest aa htc e hr ih =>
    intro j hj hinv
    simp [translateList, htc, hr, isErr]
  | case3 a b c rest aa htc tail hr ih =>
    intro j hj hinv
    rcases j with _ | _ | _ | j
    · simp only [List.getD_cons_zero] at hinv
      simp [translateList, translateCodon_err_left hinv, isErr]
    · simp only [List.getD_cons_succ, List.getD_cons_zero] at hinv
      simp [translateList, translateCodon_err_mid hinv, isErr]
    · simp only [List.getD_cons_succ, List.getD_cons_zero] at hinv
      simp [translateList, translateCodon_err_right hinv, isErr]
    · simp only [List.getD_cons_succ] at hinv
      have hlen : (a :: b :: c :: rest).length = rest.length + 3 := by simp
      rw [hlen] at hj
      have hj2 : j < 3 * (rest.length / 3) := by omega
      have herr := ih j hj2 hinv
      rw [hr] at herr
      simp [isErr] at herr
  | case4 t hne =>
    intro j hj hinv
    rcases t with _ | ⟨a, _ | ⟨b, _ | ⟨c, rest⟩⟩⟩
    · simp only [List.length_nil] at hj; omega
    · simp only [List.length_cons, List.length_nil] at hj; omega
    · simp only [List.length_cons, List.length_nil] at hj; omega
    · exact absurd rfl (hne a b c rest)

end Biosciences

namespace Biosciences

lemma frameScan_mem {n : Nat} {m : Int} {pos : Bool} {sq : List Char} {f : Nat}
    {recs : List Record} {r : Record}
    (h : frameScan n m pos sq f = .ok recs) (hr : r ∈ recs) :
    ∃ (tr : List Char) (p : Nat × Nat),
      translateList (sq.drop f) = .ok tr ∧ p ∈ runsOf tr ∧
      Int.fdiv m 3 ≤ (p.2 : Int) - (p.1 : Int) ∧ r = mkRecord n pos f tr p := by
  unfold frameScan at h
  cases htl : translateList (sq.drop f) with
  | error e => rw [htl] at h; exact Except.noConfusion h
  | ok tr =>
    rw [htl] at h
    cases h
    simp only [emitRecords, List.mem_map, List.mem_filter] at hr
    obtain ⟨p, ⟨hpmem, hpcond⟩, hpeq⟩ := hr
    refine ⟨tr, p, rfl, hpmem, ?_, hpeq.symm⟩
    exact of_decide_eq_true hpcond

lemma frameScan_err {n : Nat} {m : Int} {pos : Bool} {sq : List Char} {f : Nat}
    (h : isErr (translateList (sq.drop f)) = true) :
    isErr (frameScan n m pos sq f) = true := by
  unfold frameScan
  cases htl : translateList (sq.drop f) with
  | error e => simp [isErr]
  | ok tr => rw [htl] at h; simp [isErr] at h

lemma scanAll_ok_mem {n : Nat} {m : Int} :
    ∀ (ts : List (Bool × List Char × Nat)) (l : List Record) (r : Record),
      scanAll n m ts = .ok l → r ∈ l →
      ∃ pos sq f recs, (pos, sq, f) ∈ ts ∧ frameScan n m pos sq f = .ok recs ∧ r ∈ recs := by
  intro ts
  induction ts with
  | nil =>
    intro l r h hr
    simp only [scanAll] at h
    cases h
    simp at hr
  | cons t rest ih =>
    intro l r h hr
    obtain ⟨pos, sq, f⟩ := t
    simp only [scanAll] at h
    cases hf : frameScan n m pos sq f with
    | error e => rw [hf] at h; exact Except.noConfusion h
    | ok recs =>
      rw [hf] at h
      cases hs : scanAll n m rest with
      | error e => rw [hs] at h; exact Except.noConfusion h
      | ok more =>
        rw [hs] at h
        cases h
        rcases List.mem_append.mp hr with hmem | hmem
        · exact ⟨pos, sq, f, recs, List.mem_cons_self _ _, hf, hmem⟩
        · obtain ⟨pos2, sq2, f2, recs2, ht2, hf2, hm2⟩ := ih more r hs hmem
          exact ⟨pos2, sq2, f2, recs2, List.mem_cons_of_mem _ ht2, hf2, hm2⟩

lemma scanAll_err_of_mem {n : Nat} {m : Int} (pos : Bool) (sq : List Char) (f : Nat) :
    ∀ ts : List (Bool × List Char × Nat), (pos, sq, f) ∈ ts →
      isErr (frameScan n m pos sq f) = true → isErr (scanAll n m ts) = true := by
  intro ts
  induction ts with
  | nil => intro hmem; simp at hmem
  | cons t rest ih =>
    intro hmem herr
    obtain ⟨pos2, sq2, f2⟩ := t
    simp only [scanAll]
    cases hf : frameScan n m pos2 sq2 f2 with
    | error e => simp [isErr]
    | ok recs =>
      rcases List.mem_cons.mp hmem with heq | htail
      · rw [Prod.mk.injEq, Prod.mk.injEq] at heq
        obtain ⟨h1, h2, h3⟩ := heq
        subst h1; subst h2; subst h3
        rw [hf] at herr
        simp [isErr] at herr
      · have := ih htail herr
        cases hs : scanAll n m rest with
        | error e => simp [isErr]
        | ok more => rw [hs] at this; simp [isErr] at this

lemma find_orfs_mem {s : String} {m : Int} {r : Record}
    (hr : r ∈ okList (find_orfs s m)) :
    ∃ (pos : Bool) (f : Nat) (tr : List Char) (p : Nat × Nat),
      f < 3 ∧
      translateList ((strandSeq s pos).drop f) = .ok tr ∧
      p ∈ runsOf tr ∧
      Int.fdiv m 3 ≤ (p.2 : Int) - (p.1 : Int) ∧
      r = mkRecord (upperStr s.data).length pos f tr p := by
  cases hfo : find_orfs s m with
  | error e => rw [hfo] at hr; simp [okList] at hr
  | ok l =>
    rw [hfo] at hr
    simp only [okList] at hr
    rw [find_orfs] at hfo
    obtain ⟨pos, sq, f, recs, htm, hfs, hmem⟩ := scanAll_ok_mem _ l r hfo hr
    simp only [List.mem_cons, List.not_mem_nil, or_false, Prod.mk.injEq] at htm
    rcases htm with ⟨h1, h2, h3⟩ | ⟨h1, h2, h3⟩ | ⟨h1, h2, h3⟩ |
        ⟨h1, h2, h3⟩ | ⟨h1, h2, h3⟩ | ⟨h1, h2, h3⟩ <;>
      subst h1 <;> subst h2 <;> subst h3 <;>
      obtain ⟨tr, p, htl, hpm, hpc, hpe⟩ := frameScan_mem hfs hmem
    · exact ⟨true, 0, tr, p, by omega, by simpa [strandSeq] using htl, hpm, hpc, hpe⟩
    · exact ⟨true, 1, tr, p, by omega, by simpa [strandSeq] using htl, hpm, hpc, hpe⟩
    · exact ⟨true, 2, tr, p, by omega, by simpa [strandSeq] using htl, hpm, hpc, hpe⟩
    · exact ⟨false, 0, tr, p, by omega, by simpa [strandSeq] using htl, hpm, hpc, hpe⟩
    · exact ⟨false, 1, tr, p, by omega, by simpa [strandSeq] using htl, hpm, hpc, hpe⟩
    · exact ⟨false, 2, tr, p, by omega, by simpa [strandSeq] using htl, hpm, hpc, hpe⟩

end Biosciences

namespace Biosciences

lemma strandSeq_length (s : String) (pos : Bool) :
    (strandSeq s pos).length = s.length := by
  cases pos
  · simp only [strandSeq, reverseComplement_length, upperStr_data_length]
  · simp only [strandSeq, upperStr_data_length]

/-- C1 (counterexample): the claimed bound 1 <= start <= end <= len(s) fails
on the code: find_orfs of ATGAAA with min_length 3 emits a forward record
whose end coordinate is 9 on a sequence of length 6, and a reverse record
whose start coordinate is -2. -/
theorem orf_bounds_claim_false :
    ¬ ∀ r ∈ okList (find_orfs "ATGAAA" 3),
        1 ≤ r.start ∧ r.start ≤ r.end_ ∧ r.end_ ≤ ("ATGAAA".length : Int) := by
  decide

/-- C1 (amended): every emitted record has start <= end; on the forward
strand 1 <= start and end <= len(s) + 3, on the reverse strand -2 <= start
and end <= len(s).  The claimed bound 1 <= start and end <= len(s) can fail
only for the final, stop free run of a frame, by at most one codon width. -/
theorem orf_bounds_amended (s : String) (m : Int) (r : Record)
    (hr : r ∈ okList (find_orfs s m)) :
    r.start ≤ r.end_ ∧
    (r.strand = "+" → 1 ≤ r.start ∧ r.end_ ≤ (s.length : Int) + 3) ∧
    (r.strand = "-" → -2 ≤ r.start ∧ r.end_ ≤ (s.length : Int)) := by
  obtain ⟨pos, f, tr, p, hf3, htl, hpm, hpc, hpe⟩ := find_orfs_mem hr
  obtain ⟨hlt, h12, h2len⟩ := mem_runsOf hpm
  have hlen := translateList_ok_length _ _ htl
  rw [List.length_drop, strandSeq_length s pos] at hlen
  have hn : (upperStr s.data).length = s.length := upperStr_data_length s
  subst hpe
  cases pos with
  | false =>
    simp only [mkRecord, hn]
    refine ⟨by omega, ?_, ?_⟩
    · intro hab; exact absurd hab (by decide)
    · intro _; exact ⟨by omega, by omega⟩
  | true =>
    simp only [mkRecord, hn]
    refine ⟨by omega, ?_, ?_⟩
    · intro _; exact ⟨by omega, by omega⟩
    · intro hab; exact absurd hab (by decide)

/-- C1 (witness): the amended bounds evaluated on the first record returned
for ATGAAATAG with min_length 3. -/
theorem orf_bounds_amended_witness :
    (⟨1, 9, "+", 1, 6, ['M', 'K']⟩ : Record).start ≤
        (⟨1, 9, "+", 1, 6, ['M', 'K']⟩ : Record).end_ ∧
      ((⟨1, 9, "+", 1, 6, ['M', 'K']⟩ : Record).strand = "+" →
        1 ≤ (⟨1, 9, "+", 1, 6, ['M', 'K']⟩ : Record).start ∧
          (⟨1, 9, "+", 1, 6, ['M', 'K']⟩ : Record).end_ ≤ ("ATGAAATAG".length : Int) + 3) ∧
      ((⟨1, 9, "+", 1, 6, ['M', 'K']⟩ : Record).strand = "-" →
        -2 ≤ (⟨1, 9, "+", 1, 6, ['M', 'K']⟩ : Record).start ∧
          (⟨1, 9, "+", 1, 6, ['M', 'K']⟩ : Record).end_ ≤ ("ATGAAATAG".length : Int)) :=
  orf_bounds_amended "ATGAAATAG" 3 ⟨1, 9, "+", 1, 6, ['M', 'K']⟩ (by decide)

/-- C6: every emitted record has nucleotide length three times the amino
acid count of its protein, a multiple of three, and at least three times the
floor division of the threshold by three. -/
theorem orf_length_invariant (s : String) (m : Int) (r : Record)
    (hr : r ∈ okList (find_orfs s m)) :
    r.length = 3 * (r.protein.length : Int) ∧ r.length % 3 = 0 ∧
    3 * Int.fdiv m 3 ≤ r.length := by
  obtain ⟨pos, f, tr, p, hf3, htl, hpm, hpc, hpe⟩ := find_orfs_mem hr
  obtain ⟨hlt, h12, h2len⟩ := mem_runsOf hpm
  subst hpe
  have hplen : ((tr.drop p.1).take (p.2 - p.1)).length = p.2 - p.1 := by
    rw [List.length_take, List.length_drop]
    omega
  generalize hk : Int.fdiv m 3 = k
  rw [hk] at hpc
  cases pos with
  | false =>
    simp only [mkRecord, hplen]
    exact ⟨by omega, by omega, by omega⟩
  | true =>
    simp only [mkRecord, hplen]
    exact ⟨by omega, by omega, by omega⟩

/-- C6 (witness): the invariant evaluated on the first record returned for
ATGAAATAG with min_length 3. -/
theorem orf_length_invariant_witness :
    (⟨1, 9, "+", 1, 6, ['M', 'K']⟩ : Record).length =
        3 * ((⟨1, 9, "+", 1, 6, ['M', 'K']⟩ : Record).protein.length : Int) ∧
      (⟨1, 9, "+", 1, 6, ['M', 'K']⟩ : Record).length % 3 = 0 ∧
      3 * Int.fdiv 3 3 ≤ (⟨1, 9, "+", 1, 6, ['M', 'K']⟩ : Record).length :=
  orf_length_invariant "ATGAAATAG" 3 ⟨1, 9, "+", 1, 6, ['M', 'K']⟩ (by decide)

end Biosciences

namespace Biosciences

/-- C7: every emitted record of find_orfs comes from a frame offset f (0 to
2) and a stop bounded run p = (a, b) of the corresponding translated frame,
its coordinates given by start = f + 3a + 1 and end = f + 3b + 3 on the
forward strand and by start = n - f - 3b - 3 + 1 and end = n - f - 3a on
the reverse strand, expressed in the coordinates of the original sequence
of length n. -/
theorem orf_run_coordinates (s : String) (m : Int) (r : Record)
    (hr : r ∈ okList (find_orfs s m)) :
    ∃ (f : Nat) (p : Nat × Nat) (tr : List Char),
      f < 3 ∧ p ∈ runsOf tr ∧ r.frame = f + 1 ∧
      ((r.strand = "+" ∧ translateList ((upperStr s.data).drop f) = .ok tr ∧
          r.start = (f : Int) + (p.1 : Int) * 3 + 1 ∧
          r.end_ = (f : Int) + (p.2 : Int) * 3 + 3) ∨
       (r.strand = "-" ∧
          translateList ((reverseComplement (upperStr s.data)).drop f) = .ok tr ∧
          r.start = (s.length : Int) - (f : Int) - (p.2 : Int) * 3 - 3 + 1 ∧
          r.end_ = (s.length : Int) - (f : Int) - (p.1 : Int) * 3)) := by
  obtain ⟨pos, f, tr, p, hf3, htl, hpm, hpc, hpe⟩ := find_orfs_mem hr
  have hn : (upperStr s.data).length = s.length := upperStr_data_length s
  subst hpe
  cases pos with
  | true =>
    simp only [strandSeq] at htl
    exact ⟨f, p, tr, hf3, hpm, rfl, Or.inl ⟨rfl, htl, rfl, rfl⟩⟩
  | false =>
    simp only [strandSeq] at htl
    refine ⟨f, p, tr, hf3, hpm, rfl, Or.inr ⟨rfl, htl, ?_, ?_⟩⟩
    · simp only [mkRecord, hn]
    · simp only [mkRecord, hn]

/-- C7 (witness): the run and coordinate decomposition evaluated on the
first record returned for ATGAAATAG with min_length 3. -/
theorem orf_run_coordinates_witness :
    ∃ (f : Nat) (p : Nat × Nat) (tr : List Char),
      f < 3 ∧ p ∈ runsOf tr ∧ (⟨1, 9, "+", 1, 6, ['M', 'K']⟩ : Record).frame = f + 1 ∧
      (((⟨1, 9, "+", 1, 6, ['M', 'K']⟩ : Record).strand = "+" ∧
          translateList ((upperStr "ATGAAATAG".data).drop f) = .ok tr ∧
          (⟨1, 9, "+", 1, 6, ['M', 'K']⟩ : Record).start = (f : Int) + (p.1 : Int) * 3 + 1 ∧
          (⟨1, 9, "+", 1, 6, ['M', 'K']⟩ : Record).end_ = (f : Int) + (p.2 : Int) * 3 + 3) ∨
       ((⟨1, 9, "+", 1, 6, ['M', 'K']⟩ : Record).strand = "-" ∧
          translateList ((reverseComplement (upperStr "ATGAAATAG".data)).drop f) = .ok tr ∧
          (⟨1, 9, "+", 1, 6, ['M', 'K']⟩ : Record).start =
            ("ATGAAATAG".length : Int) - (f : Int) - (p.2 : Int) * 3 - 3 + 1 ∧
          (⟨1, 9, "+", 1, 6, ['M', 'K']⟩ : Record).end_ =
            ("ATGAAATAG".length : Int) - (f : Int) - (p.1 : Int) * 3)) :=
  orf_run_coordinates "ATGAAATAG" 3 ⟨1, 9, "+", 1, 6, ['M', 'K']⟩ (by decide)

lemma alpha_facts (c : Char) (h : c ∈ nucAlphabet) :
    upperChar c = c ∧ complementChar c ∈ nucAlphabet ∧
    complementChar (complementChar c) = c := by
  fin_cases h <;> exact ⟨rfl, by decide, rfl⟩

/-- C8: for a sequence over the nucleotide alphabet (up to letter case),
two applications of the reverse_complement tool give back the uppercased
sequence. -/
theorem revcomp_involution (s : String)
    (h : ∀ c ∈ s.data, upperChar c ∈ nucAlphabet) :
    reverse_complement (reverse_complement s) = String.mk (upperStr s.data) := by
  unfold reverse_complement
  congr 1
  show reverseComplement (upperStr (reverseComplement (upperStr s.data))) = upperStr s.data
  simp only [reverseComplement, upperStr, List.map_reverse, List.reverse_reverse,
    List.map_map]
  apply List.map_congr_left
  intro a ha
  have h1 := alpha_facts _ (h a ha)
  have h2 := alpha_facts _ h1.2.1
  simp only [Function.comp_apply]
  rw [h2.1, h1.2.2]

/-- C8 (witness): the round trip law evaluated on a mixed case sequence
covering the whole alphabet. -/
theorem revcomp_involution_witness :
    reverse_complement (reverse_complement "acgtRYSWKMbdhvn") =
      String.mk (upperStr "acgtRYSWKMbdhvn".data) :=
  revcomp_involution "acgtRYSWKMbdhvn" (by decide)

/-- C9: find_motif returns a strictly increasing list that contains a
position i exactly when 1 <= i <= len(s) - len(p) + 1 and the uppercased
motif occurs at the 1 indexed position i of the uppercased sequence. -/
theorem find_motif_spec (s p : String) (h : p.length ≤ s.length) :
    List.Pairwise (· < ·) (find_motif s p) ∧
    ∀ i : Nat, i ∈ find_motif s p ↔
      1 ≤ i ∧ i ≤ s.length - p.length + 1 ∧
      ((upperStr s.data).drop (i - 1)).take p.length = upperStr p.data := by
  have hsl : (upperStr s.data).length = s.length := upperStr_data_length s
  have hpl : (upperStr p.data).length = p.length := upperStr_data_length p
  constructor
  · unfold find_motif
    apply List.pairwise_map.mpr
    exact ((List.pairwise_lt_range _).filter _).imp (fun hab => by omega)
  · intro i
    unfold find_motif
    simp only [List.mem_map, List.mem_filter, List.mem_range, hsl, hpl,
      decide_eq_true_eq]
    constructor
    · rintro ⟨j, ⟨hjk, hcond⟩, rfl⟩
      refine ⟨by omega, by omega, ?_⟩
      simpa using hcond
    · rintro ⟨h1, h2, h3⟩
      refine ⟨i - 1, ⟨by omega, h3⟩, by omega⟩

/-- C9 (witness): the characterisation evaluated on sequence AAA and motif
AA, whose occurrence list is 1, 2. -/
theorem find_motif_spec_witness :
    List.Pairwise (· < ·) (find_motif "AAA" "AA") ∧
    ∀ i : Nat, i ∈ find_motif "AAA" "AA" ↔
      1 ≤ i ∧ i ≤ "AAA".length - "AA".length + 1 ∧
      ((upperStr "AAA".data).drop (i - 1)).take "AA".length = upperStr "AA".data :=
  find_motif_spec "AAA" "AA" (by decide)

lemma round4_bounds {q : ℚ} (h0 : 0 ≤ q) (h1 : q ≤ 1) :
    0 ≤ round4 q ∧ round4 q ≤ 1 := by
  unfold round4
  constructor
  · apply div_nonneg _ (by norm_num : (0:ℚ) ≤ 10000)
    have hz : (0:ℤ) ≤ round (q * 10000) := by
      rw [round_eq]
      apply Int.le_floor.mpr
      push_cast
      nlinarith
    exact_mod_cast hz
  · rw [div_le_one (by norm_num : (0:ℚ) < 10000)]
    have hz : round (q * 10000) ≤ 10000 := by
      rw [round_eq]
      have hfl : (⌊q * 10000 + 1 / 2⌋ : ℚ) ≤ q * 10000 + 1 / 2 := Int.floor_le _
      have hlt : ((⌊q * 10000 + 1 / 2⌋ : ℤ) : ℚ) < 10001 := by nlinarith
      have hzz : ⌊q * 10000 + 1 / 2⌋ < (10001 : ℤ) := by exact_mod_cast hlt
      omega
    exact_mod_cast hz

/-- C10: calculate_sequence_distance fails on sequences of different
lengths, fails on two empty sequences (the division by zero of the
original), and on equal length non empty sequences returns a number between
0 and 1 inclusive. -/
theorem distance_spec (seq1 seq2 : String) :
    (seq1.length ≠ seq2.length → isErr (calculate_sequence_distance seq1 seq2) = true) ∧
    (seq1 = "" → seq2 = "" → isErr (calculate_sequence_distance seq1 seq2) = true) ∧
    (seq1.length = seq2.length → seq1.length ≠ 0 →
      ∃ q : ℚ, calculate_sequence_distance seq1 seq2 = .ok q ∧ 0 ≤ q ∧ q ≤ 1) := by
  refine ⟨?_, ?_, ?_⟩
  · intro hne
    rw [calculate_sequence_distance, if_pos hne]
    rfl
  · intro h1 h2
    subst h1; subst h2
    decide
  · intro heq hnz
    rw [calculate_sequence_distance, if_neg (by omega), if_neg hnz]
    refine ⟨_, rfl, ?_⟩
    have hdn : ((upperStr seq1.data).zip (upperStr seq2.data)).countP
        (fun q => q.1 != q.2) ≤ seq1.length := by
      have hle := List.countP_le_length (l := (upperStr seq1.data).zip (upperStr seq2.data))
        (p := fun q => q.1 != q.2)
      have hz : ((upperStr seq1.data).zip (upperStr seq2.data)).length =
          min seq1.length seq2.length := by
        rw [List.length_zip, upperStr_data_length, upperStr_data_length]
      omega
    have hpos : (0:ℚ) < (seq1.length : ℚ) := by
      exact_mod_cast Nat.pos_of_ne_zero hnz
    have h0 : (0:ℚ) ≤ (((upperStr seq1.data).zip (upperStr seq2.data)).countP
        (fun q => q.1 != q.2) : ℚ) / (seq1.length : ℚ) := by positivity
    have h1 : (((upperStr seq1.data).zip (upperStr seq2.data)).countP
        (fun q => q.1 != q.2) : ℚ) / (seq1.length : ℚ) ≤ 1 := by
      rw [div_le_one hpos]
      exact_mod_cast hdn
    exact round4_bounds h0 h1

/-- C10 (witness): the three branches evaluated on concrete inputs: a
length mismatch, two empty sequences, and the pair AC, AG whose distance is
one half. -/
theorem distance_spec_witness :
    isErr (calculate_sequence_distance "A" "AB") = true ∧
    isErr (calculate_sequence_distance "" "") = true ∧
    ∃ q : ℚ, calculate_sequence_distance "AC" "AG" = .ok q ∧ 0 ≤ q ∧ q ≤ 1 :=
  ⟨(distance_spec "A" "AB").1 (by decide),
   (distance_spec "" "").2.1 rfl rfl,
   (distance_spec "AC" "AG").2.2 rfl (by decide)⟩

end Biosciences

namespace Biosciences

/-- C2 (counterexample): the two character sequence AX contains the invalid
letter X, yet find_orfs accepts it and returns the empty record list instead
of failing: no frame reaches a full codon, so the invalid letter is never
seen by translation. -/
theorem invalid_sequence_claim_false :
    find_orfs "AX" 3 = Except.ok [] ∧ expandBase 'X' = [] :=
  ⟨rfl, rfl⟩

/-- C2 (amended): a sequence of length at least three whose uppercased form
contains a character outside the accepted alphabet makes find_orfs fail
with its error value, because every position then falls inside a translated
codon of some forward frame; shorter invalid sequences are silently
accepted with an empty result. -/
theorem invalid_sequence_error_amended (s : String) (m : Int)
    (hlen : 3 ≤ s.length) (hinv : ∃ c ∈ upperStr s.data, expandBase c = []) :
    isErr (find_orfs s m) = true := by
  obtain ⟨c, hc, hx⟩ := hinv
  obtain ⟨i, hi, hceq⟩ := List.mem_iff_getElem.mp hc
  have hun : (upperStr s.data).length = s.length := upperStr_data_length s
  obtain ⟨f, hf3, hfi, hcov⟩ :
      ∃ f : Nat, f < 3 ∧ f ≤ i ∧ i - f < 3 * (((upperStr s.data).drop f).length / 3) := by
    by_cases hcase : i < 3 * ((upperStr s.data).length / 3)
    · exact ⟨0, by omega, Nat.zero_le i, by rw [List.length_drop]; omega⟩
    · refine ⟨(upperStr s.data).length % 3, by omega, by omega, ?_⟩
      rw [List.length_drop]
      omega
  have herr : isErr (translateList ((upperStr s.data).drop f)) = true := by
    apply translateList_err _ (i - f) hcov
    have hidx : i - f < ((upperStr s.data).drop f).length := by
      have h33 : 3 * ((((upperStr s.data).drop f).length) / 3) ≤
          ((upperStr s.data).drop f).length := by omega
      omega
    rw [List.getD_eq_getElem?_getD, List.getElem?_eq_getElem hidx, Option.getD_some,
      List.getElem_drop]
    have hix : f + (i - f) = i := by omega
    simp only [hix]
    rw [hceq]
    exact hx
  rw [find_orfs]
  apply scanAll_err_of_mem true (upperStr s.data) f _ _ (frameScan_err herr)
  have hf : f = 0 ∨ f = 1 ∨ f = 2 := by omega
  rcases hf with rfl | rfl | rfl <;> simp

/-- C2 (witness): the amended failure condition evaluated on the sequence
ATGXXX of the spec example. -/
theorem invalid_sequence_error_amended_witness :
    isErr (find_orfs "ATGXXX" 3) = true :=
  invalid_sequence_error_amended "ATGXXX" 3 (by decide) ⟨'X', by decide, rfl⟩

/-- C3 (counterexample): the record claimed by the spec example, with
nucleotide length 9, is not among the records returned for ATGAAATAG with
min_length 3: the code sets length to three times the amino acid count,
which is 6 here. -/
theorem example_orf_claim_false :
    (⟨1, 9, "+", 1, 9, ['M', 'K']⟩ : Record) ∉ okList (find_orfs "ATGAAATAG" 3) := by
  decide

/-- C3 (amended): find_orfs of ATGAAATAG with min_length 3 returns six
records, one per frame; the first is the forward frame 1 record with
start 1, end 9, length 6 (three times the two amino acids, the stop codon
included in end but not in length) and protein MK. -/
theorem example_orf_amended :
    find_orfs "ATGAAATAG" 3 = Except.ok
      [⟨1, 9, "+", 1, 6, ['M', 'K']⟩, ⟨5, 10, "+", 2, 3, ['N']⟩,
       ⟨3, 11, "+", 3, 6, ['E', 'I']⟩, ⟨-2, 9, "-", 1, 9, ['L', 'F', 'H']⟩,
       ⟨0, 8, "-", 2, 6, ['Y', 'F']⟩, ⟨-1, 7, "-", 3, 6, ['I', 'S']⟩] :=
  rfl

lemma emitRecords_eq_nil {n : Nat} {m : Int} {pos : Bool} {f : Nat} {tr : List Char}
    (h : ∀ p ∈ runsOf tr, (p.2 : Int) - (p.1 : Int) < Int.fdiv m 3) :
    emitRecords n m pos f tr = [] := by
  unfold emitRecords
  rw [List.filter_eq_nil_iff.mpr, List.map_nil]
  intro p hp
  simp only [decide_eq_true_eq, not_le]
  exact h p hp

/-- C4 (counterexample): with min_length 1 the all stop sequence TAATAATAA
does not give the empty record list: the threshold of 1 // 3 = 0 amino
acids admits even the empty runs between consecutive stops, and the other
five frames are not all stops at all. -/
theorem stop_codons_claim_false :
    find_orfs "TAATAATAA" 1 ≠ Except.ok [] := by
  decide

/-- C4 (amended): find_orfs of the all stop sequence TAATAATAA returns the
empty list exactly when the amino acid threshold exceeds every run, which
for this sequence (longest stop free run: three amino acids, on the reverse
strand) means every min_length of at least 12. -/
theorem stop_codons_amended (m : Int) (hm : 12 ≤ m) :
    find_orfs "TAATAATAA" m = Except.ok [] := by
  have h4 : 4 ≤ Int.fdiv m 3 := by
    rw [Int.fdiv_eq_ediv _ (by norm_num)]
    omega
  have e1 : translateList ((upperStr "TAATAATAA".data).drop 0) =
      .ok ['*', '*', '*'] := rfl
  have e2 : translateList ((upperStr "TAATAATAA".data).drop 1) = .ok ['N', 'N'] := rfl
  have e3 : translateList ((upperStr "TAATAATAA".data).drop 2) = .ok ['I', 'I'] := rfl
  have e4 : translateList ((reverseComplement (upperStr "TAATAATAA".data)).drop 0) =
      .ok ['L', 'L', 'L'] := rfl
  have e5 : translateList ((reverseComplement (upperStr "TAATAATAA".data)).drop 1) =
      .ok ['Y', 'Y'] := rfl
  have e6 : translateList ((reverseComplement (upperStr "TAATAATAA".data)).drop 2) =
      .ok ['I', 'I'] := rfl
  have hnil : ∀ (pos : Bool) (f : Nat) (tr : List Char),
      (∀ p ∈ runsOf tr, (p.2 : Int) - (p.1 : Int) ≤ 3) →
      emitRecords (upperStr "TAATAATAA".data).length m pos f tr = [] := by
    intro pos f tr htr
    apply emitRecords_eq_nil
    intro p hp
    have := htr p hp
    omega
  have f1 : frameScan (upperStr "TAATAATAA".data).length m true
      (upperStr "TAATAATAA".data) 0 = .ok [] := by
    rw [frameScan, e1]
    exact congrArg Except.ok (hnil true 0 _ (by
      intro p hp
      rw [show runsOf ['*', '*', '*'] = [(0, 0), (1, 1), (2, 2)] from rfl] at hp
      fin_cases hp <;> simp))
  have f2 : frameScan (upperStr "TAATAATAA".data).length m true
      (upperStr "TAATAATAA".data) 1 = .ok [] := by
    rw [frameScan, e2]
    exact congrArg Except.ok (hnil true 1 _ (by
      intro p hp
      rw [show runsOf ['N', 'N'] = [(0, 2)] from rfl] at hp
      fin_cases hp <;> simp))
  have f3 : frameScan (upperStr "TAATAATAA".data).length m true
      (upperStr "TAATAATAA".data) 2 = .ok [] := by
    rw [frameScan, e3]
    exact congrArg Except.ok (hnil true 2 _ (by
      intro p hp
      rw [show runsOf ['I', 'I'] = [(0, 2)] from rfl] at hp
      fin_cases hp <;> simp))
  have f4 : frameScan (upperStr "TAATAATAA".data).length m false
      (reverseComplement (upperStr "TAATAATAA".data)) 0 = .ok [] := by
    rw [frameScan, e4]
    exact congrArg Except.ok (hnil false 0 _ (by
      intro p hp
      rw [show runsOf ['L', 'L', 'L'] = [(0, 3)] from rfl] at hp
      fin_cases hp <;> simp))
  have f5 : frameScan (upperStr "TAATAATAA".data).length m false
      (reverseComplement (upperStr "TAATAATAA".data)) 1 = .ok [] := by
    rw [frameScan, e5]
    exact congrArg Except.ok (hnil false 1 _ (by
      intro p hp
      rw [show runsOf ['Y', 'Y'] = [(0, 2)] from rfl] at hp
      fin_cases hp <;> simp))
  have f6 : frameScan (upperStr "TAATAATAA".data).length m false
      (reverseComplement (upperStr "TAATAATAA".data)) 2 = .ok [] := by
    rw [frameScan, e6]
    exact congrArg Except.ok (hnil false 2 _ (by
      intro p hp
      rw [show runsOf ['I', 'I'] = [(0, 2)] from rfl] at hp
      fin_cases hp <;> simp))
  rw [find_orfs]
  simp only [scanAll, f1, f2, f3, f4, f5, f6, List.nil_append]

/-- C4 (witness): the amended statement evaluated at min_length 12. -/
theorem stop_codons_amended_witness :
    find_orfs "TAATAATAA" 12 = Except.ok [] :=
  stop_codons_amended 12 (by decide)

lemma frameScan_threshold {n : Nat} {pos : Bool} {sq : List Char} {f : Nat}
    {m : Int} (hm : m < 0) :
    frameScan n m pos sq f = frameScan n 0 pos sq f := by
  have hfd : Int.fdiv m 3 ≤ 0 := by
    rw [Int.fdiv_eq_ediv _ (by norm_num)]
    omega
  rw [frameScan, frameScan]
  cases htl : translateList (sq.drop f) with
  | error e => rfl
  | ok tr =>
    have : emitRecords n m pos f tr = emitRecords n 0 pos f tr := by
      unfold emitRecords
      congr 1
      apply List.filter_congr
      intro p hp
      obtain ⟨-, h12, -⟩ := mem_runsOf hp
      have hd : (0 : Int) ≤ (p.2 : Int) - (p.1 : Int) := by omega
      have t1 : Int.fdiv m 3 ≤ (p.2 : Int) - (p.1 : Int) := le_trans hfd hd
      have t2 : Int.fdiv 0 3 ≤ (p.2 : Int) - (p.1 : Int) := by
        rw [show Int.fdiv 0 3 = 0 from rfl]
        exact hd
      simp only [decide_eq_true t1, decide_eq_true t2]
    exact congrArg Except.ok this

/-- C5 (counterexample): a negative min_length is not rejected: find_orfs
of ATG with min_length -1 returns two records instead of an InvalidArgument
failure, the Python floor division making the threshold negative. -/
theorem negative_min_length_claim_false :
    find_orfs "ATG" (-1) =
      Except.ok [⟨1, 6, "+", 1, 3, ['M']⟩, ⟨-2, 3, "-", 1, 3, ['H']⟩] :=
  rfl

/-- C5 (amended): find_orfs performs no validation of min_length: for every
negative threshold it behaves exactly as min_length 0 does, every run of
every frame qualifying, and no error is reported. -/
theorem negative_min_length_amended (s : String) (m : Int) (hm : m < 0) :
    find_orfs s m = find_orfs s 0 := by
  rw [find_orfs, find_orfs]
  generalize (upperStr s.data).length = n
  generalize [(true, upperStr s.data, 0), (true, upperStr s.data, 1),
      (true, upperStr s.data, 2),
      (false, reverseComplement (upperStr s.data), 0),
      (false, reverseComplement (upperStr s.data), 1),
      (false, reverseComplement (upperStr s.data), 2)] = ts
  induction ts with
  | nil => rfl
  | cons t rest ih =>
    obtain ⟨pos, sq, f⟩ := t
    simp only [scanAll, frameScan_threshold hm, ih]

/-- C5 (witness): the amended equivalence evaluated at min_length -5 on the
sequence ATG. -/
theorem negative_min_length_amended_witness :
    find_orfs "ATG" (-5) = find_orfs "ATG" 0 :=
  negative_min_length_amended "ATG" (-5) (by decide)

end Biosciences
